import Mathlib

/-!
Shallow embedding of `showkeybindings.py`, a GTK utility that lists the
keybindings stored in gsettings.  Strings are modelled as `List Char`.

The parsing core (`_BuildSpec`) mirrors the Python code

    modifiers = []
    key = binding
    for modifier in self._modifier_re.findall(key):   -- regex <[^>]+>
        if modifier == "<Shift>": modifiers.append("Shift")
        elif modifier == "<Primary>" or modifier == "<Control>":
            modifiers.append("Control")
        elif modifier == "<Alt>": modifiers.append("Alt")
        elif modifier == "<Super>": modifiers.append("Super")
        key = key.replace(modifier, "")
    return KeybindingSpec(schema, action, " ".join(modifiers), key)

`re.findall` for the pattern `<[^>]+>` scans left to right; at a position
holding `<` it matches up to the first following `>` provided at least one
non-`>` character lies between, and resumes after the match; otherwise it
advances one character.  `str.replace(old, "")` removes every
non-overlapping occurrence of `old`, scanning left to right.  Both are
embedded below with explicit fuel (the fuel is always sufficient, see the
`*_eq_of_le` lemmas) so that every definition evaluates by `decide`/`rfl`.
-/

namespace ShowKeybindings

/-- Python `needle in hay` (substring test). -/
def strContains (hay needle : List Char) : Bool :=
  hay.tails.any (fun d => needle.isPrefixOf d)

/-- Split a character list at the first `>`: `takeToGt s = some (b, a)`
iff `s = b ++ '>' :: a` with `b` free of `>`.  This is how the regex piece
`[^>]+>` consumes input (the character class cannot cross a `>`). -/
def takeToGt : List Char → Option (List Char × List Char)
  | [] => none
  | c :: cs =>
    if c = '>' then some ([], cs)
    else
      match takeToGt cs with
      | some (b, a) => some (c :: b, a)
      | none => none

/-- Attempt to match the regex `<[^>]+>` at the start of `s`; on success
return the matched tag text and the remainder of `s`. -/
def matchTagAt : List Char → Option (List Char × List Char)
  | [] => none
  | c :: cs =>
    if c = '<' then
      match takeToGt cs with
      | some (b, a) => if b.isEmpty then none else some ('<' :: (b ++ ['>']), a)
      | none => none
    else none

/-- Fuelled scan implementing `re.findall('<[^>]+>', s)`: try a match at
each position, resuming after each match, advancing one character on
failure. -/
def findallF : Nat → List Char → List (List Char)
  | 0, _ => []
  | _ + 1, [] => []
  | n + 1, c :: cs =>
    match matchTagAt (c :: cs) with
    | some (tag, rest) => tag :: findallF n rest
    | none => findallF n cs

/-- `re.findall('<[^>]+>', s)`.  `s.length` fuel always suffices. -/
def findall (s : List Char) : List (List Char) := findallF s.length s

/-- Fuelled implementation of Python `s.replace(pat, "")`: remove every
non-overlapping occurrence of `pat`, scanning left to right. -/
def removeAllF : Nat → List Char → List Char → List Char
  | 0, _, s => s
  | _ + 1, _, [] => []
  | n + 1, pat, c :: cs =>
    if pat.isPrefixOf (c :: cs) && !pat.isEmpty then
      removeAllF n pat (List.drop pat.length (c :: cs))
    else c :: removeAllF n pat cs

/-- Python `s.replace(pat, "")`.  `s.length` fuel always suffices. -/
def removeAll (pat s : List Char) : List Char := removeAllF s.length pat s

/-- The `if`/`elif` chain classifying one matched tag: the canonical
modifier name for a recognized tag, `none` for any other tag. -/
def modifierName (tag : List Char) : Option (List Char) :=
  if tag = "<Shift>".toList then some ("Shift".toList)
  else if tag = "<Primary>".toList ∨ tag = "<Control>".toList then
    some ("Control".toList)
  else if tag = "<Alt>".toList then some ("Alt".toList)
  else if tag = "<Super>".toList then some ("Super".toList)
  else none

/-- The loop body of `_BuildSpec`: fold over the matches found by the
initial scan, appending recognized modifier names and removing every
occurrence of each matched tag from the working key. -/
def buildSpecLoop : List (List Char) → List (List Char) → List Char →
    List (List Char) × List Char
  | [], mods, key => (mods, key)
  | tag :: rest, mods, key =>
    buildSpecLoop rest
      (match modifierName tag with
       | some m => mods ++ [m]
       | none => mods)
      (removeAll tag key)

/-- Python `" ".join(ms)`. -/
def joinSpace : List (List Char) → List Char
  | [] => []
  | [m] => m
  | m :: ms => m ++ ' ' :: joinSpace ms

/-- `KeybindingSpec`: one key binding of a gsettings schema and action. -/
structure KeybindingSpec where
  schema : List Char
  action : List Char
  modifiers : List Char
  key : List Char
deriving DecidableEq

/-- `KeybindingSpec.ToList`: the four column values, in column order. -/
def KeybindingSpec.ToList (s : KeybindingSpec) : List (List Char) :=
  [s.schema, s.action, s.modifiers, s.key]

/-- `KeybindingCollector._BuildSpec`: parse one raw binding string. -/
def _BuildSpec (schema action binding : List Char) : KeybindingSpec :=
  let r := buildSpecLoop (findall binding) [] binding
  { schema := schema, action := action, modifiers := joinSpace r.1, key := r.2 }

/-- Abstract model of the gsettings store a `KeybindingCollector` reads:
the two schema enumerations returned by `list_schemas(True)`, whether
`lookup(schema, False).get_path()` is truthy, the keys of each schema,
whether a key holds a value of GVariant type `as` (string array), and the
string list `get_strv` returns for it. -/
structure Store where
  nonRelocatableSchemas : List (List Char)
  relocatableSchemas : List (List Char)
  hasPath : List Char → Bool
  keys : List Char → List (List Char)
  isStringArray : List Char → List Char → Bool
  getStrv : List Char → List Char → List (List Char)

/-- The list comprehension in `_GetSpecsForSchema`:
`[self._BuildSpec(schema, action, b) for b in keybindings if b]`. -/
def bindingSpecs (schema action : List Char) (bs : List (List Char)) :
    List KeybindingSpec :=
  (bs.filter (fun b => !b.isEmpty)).map (fun b => _BuildSpec schema action b)

/-- The body of `_GetSpecsForSchema` for one key (`action`): contribute
records only when the value is a string array, guarded by the Python
`if keybindings:` truthiness test. -/
def keyRecords (st : Store) (schema action : List Char) : List KeybindingSpec :=
  if st.isStringArray schema action then
    if (st.getStrv schema action).isEmpty then []
    else bindingSpecs schema action (st.getStrv schema action)
  else []

/-- `KeybindingCollector._GetSpecsForSchema`: records of one schema, in
key enumeration order. -/
def _GetSpecsForSchema (st : Store) (schema : List Char) : List KeybindingSpec :=
  (st.keys schema).flatMap (fun action => keyRecords st schema action)

/-- The per-schema contribution inside `GetAllSpecs`: the schema passes
the filter `'keybindings' in schema and src.lookup(schema, False).get_path()`
or contributes nothing. -/
def schemaContribution (st : Store) (schema : List Char) : List KeybindingSpec :=
  if strContains schema ("keybindings".toList) && st.hasPath schema then
    _GetSpecsForSchema st schema
  else []

/-- `KeybindingCollector.GetAllSpecs`: iterate
`non_relocatable_schemas + relocatable_schemas` and concatenate each
schema's contribution. -/
def GetAllSpecs (st : Store) : List KeybindingSpec :=
  (st.nonRelocatableSchemas ++ st.relocatableSchemas).flatMap
    (fun schema => schemaContribution st schema)

/-- Python `s.lower()` (ASCII model). -/
def pyLower (s : List Char) : List Char := s.map Char.toLower

/-- `TreeViewWindow._Search`: the Gtk search-equal callback.  Returns
`false` (meaning: the row matches) as soon as one of the four column
texts contains the typed string case-insensitively, `true` otherwise. -/
def _Search (key : List Char) (row : KeybindingSpec) : Bool :=
  !(row.ToList.any (fun col => strContains (pyLower col) (pyLower key)))

/-! ### Structure of single tag matches -/

/-- The text strictly between the brackets of a tag. -/
def tagBody (t : List Char) : List Char := t.tail.dropLast

/-- A character list that the pattern `<[^>]+>` matches in full:
an opening `<`, a nonempty body free of `>`, a closing `>`. -/
def wellFormedTag (t : List Char) : Prop :=
  t = '<' :: (tagBody t ++ ['>']) ∧ tagBody t ≠ [] ∧ '>' ∉ tagBody t

theorem takeToGt_eq : ∀ {s b a : List Char}, takeToGt s = some (b, a) →
    '>' ∉ b ∧ s = b ++ '>' :: a := by
  intro s
  induction s with
  | nil => intro b a h; simp [takeToGt] at h
  | cons c cs ih =>
    intro b a h
    by_cases hc : c = '>'
    · subst hc
      simp [takeToGt] at h
      obtain ⟨hb, ha⟩ := h
      subst hb; subst ha
      simp
    · simp only [takeToGt, if_neg hc] at h
      cases htg : takeToGt cs with
      | none => rw [htg] at h; simp at h
      | some p =>
        obtain ⟨b', a'⟩ := p
        rw [htg] at h
        simp at h
        obtain ⟨hb, ha⟩ := h
        obtain ⟨hb'gt, hcs⟩ := ih htg
        subst hb; subst ha; subst hcs
        constructor
        · intro hmem
          rcases List.mem_cons.mp hmem with h1 | h2
          · exact hc h1.symm
          · exact hb'gt h2
        · simp

theorem takeToGt_append : ∀ {b : List Char}, '>' ∉ b → ∀ (r : List Char),
    takeToGt (b ++ '>' :: r) = some (b, r) := by
  intro b
  induction b with
  | nil => intro _ r; simp [takeToGt]
  | cons c cs ih =>
    intro h r
    have hc : c ≠ '>' := by intro hc; exact h (by simp [hc])
    have hcs : '>' ∉ cs := by intro hx; exact h (by simp [hx])
    show takeToGt (c :: (cs ++ '>' :: r)) = some (c :: cs, r)
    simp only [takeToGt, if_neg hc, ih hcs r]

theorem matchTagAt_some : ∀ {s t r : List Char}, matchTagAt s = some (t, r) →
    ∃ b, b ≠ [] ∧ '>' ∉ b ∧ t = '<' :: (b ++ ['>']) ∧ s = t ++ r := by
  intro s t r h
  cases s with
  | nil => simp [matchTagAt] at h
  | cons c cs =>
    by_cases hc : c = '<'
    · subst hc
      simp only [matchTagAt, if_pos rfl] at h
      cases htg : takeToGt cs with
      | none => rw [htg] at h; simp at h
      | some p =>
        obtain ⟨b, a⟩ := p
        rw [htg] at h
        by_cases hb : b.isEmpty
        · simp [hb] at h
        · simp [hb] at h
          obtain ⟨ht, hr⟩ := h
          obtain ⟨hbgt, hcs⟩ := takeToGt_eq htg
          refine ⟨b, ?_, hbgt, ht.symm, ?_⟩
          · intro hnil; rw [hnil] at hb; exact hb rfl
          · rw [← ht, ← hr, hcs]; simp
    · simp [matchTagAt, hc] at h

theorem matchTagAt_wf {t : List Char} (h : wellFormedTag t) (r : List Char) :
    matchTagAt (t ++ r) = some (t, r) := by
  obtain ⟨ht, hne, hgt⟩ := h
  rw [ht]
  have : ('<' :: (tagBody t ++ ['>'])) ++ r = '<' :: (tagBody t ++ '>' :: r) := by simp
  rw [this]
  simp only [matchTagAt, if_pos rfl, takeToGt_append hgt r]
  have hbe : (tagBody t).isEmpty = false := by
    cases htb : tagBody t with
    | nil => exact absurd htb hne
    | cons _ _ => rfl
  simp [hbe]

theorem wellFormedTag_of_matchTagAt {s t r : List Char}
    (h : matchTagAt s = some (t, r)) : wellFormedTag t := by
  obtain ⟨b, hne, hgt, ht, _⟩ := matchTagAt_some h
  have hb : tagBody t = b := by rw [ht]; simp [tagBody]
  exact ⟨by rw [hb]; exact ht, by rw [hb]; exact hne, by rw [hb]; exact hgt⟩

/-! ### The fuel of `findall` and `removeAll` is always sufficient -/

theorem matchTagAt_lengths {c : Char} {cs t r : List Char}
    (h : matchTagAt (c :: cs) = some (t, r)) :
    3 ≤ t.length ∧ r.length ≤ cs.length := by
  obtain ⟨b, hbne, _, ht, hs⟩ := matchTagAt_some h
  have hb : 1 ≤ b.length := List.length_pos.mpr hbne
  have htl : t.length = b.length + 2 := by rw [ht]; simp
  have : cs.length + 1 = t.length + r.length := by
    have := congrArg List.length hs
    simpa using this
  omega

theorem findallF_eq_of_le : ∀ (n : Nat) (s : List Char), s.length ≤ n →
    findallF n s = findall s := by
  intro n
  induction n using Nat.strong_induction_on with
  | _ n ih =>
    intro s hs
    cases s with
    | nil => cases n <;> rfl
    | cons c cs =>
      cases n with
      | zero => simp at hs
      | succ n =>
        have hcs : cs.length ≤ n := by simpa using hs
        show findallF (n + 1) (c :: cs) = findallF (c :: cs).length (c :: cs)
        cases hm : matchTagAt (c :: cs) with
        | none =>
          simp only [List.length_cons, findallF, hm]
          rw [ih n (Nat.lt_succ_self n) cs hcs]
          rw [ih cs.length (Nat.lt_succ_of_le hcs) cs (le_refl _)]
        | some p =>
          obtain ⟨tag, rest⟩ := p
          have hrest : rest.length ≤ cs.length := (matchTagAt_lengths hm).2
          simp only [List.length_cons, findallF, hm]
          rw [ih n (Nat.lt_succ_self n) rest (le_trans hrest hcs)]
          rw [ih cs.length (Nat.lt_succ_of_le hcs) rest hrest]

theorem findall_cons_none {c : Char} {cs : List Char}
    (h : matchTagAt (c :: cs) = none) : findall (c :: cs) = findall cs := by
  show findallF (c :: cs).length (c :: cs) = findall cs
  simp only [List.length_cons, findallF, h]
  exact findallF_eq_of_le cs.length cs (le_refl _)

theorem findall_eq_some {s tag rest : List Char}
    (h : matchTagAt s = some (tag, rest)) : findall s = tag :: findall rest := by
  cases s with
  | nil => simp [matchTagAt] at h
  | cons c cs =>
    show findallF (c :: cs).length (c :: cs) = tag :: findall rest
    simp only [List.length_cons, findallF, h]
    rw [findallF_eq_of_le cs.length rest (matchTagAt_lengths h).2]

theorem length_drop_le_of_cond {pat : List Char} {c : Char} {cs : List Char}
    (hp : (pat.isPrefixOf (c :: cs) && !pat.isEmpty) = true) :
    (List.drop pat.length (c :: cs)).length ≤ cs.length := by
  have hpe : pat.isEmpty = false := by
    cases hpp : pat.isEmpty
    · rfl
    · rw [hpp] at hp; simp at hp
  have hpl : 1 ≤ pat.length := by
    cases pat with
    | nil => simp [List.isEmpty] at hpe
    | cons _ _ => simp
  simp only [List.length_drop, List.length_cons]
  omega

theorem removeAllF_eq_of_le : ∀ (n : Nat) (pat s : List Char), s.length ≤ n →
    removeAllF n pat s = removeAll pat s := by
  intro n
  induction n using Nat.strong_induction_on with
  | _ n ih =>
    intro pat s hs
    cases s with
    | nil => cases n <;> rfl
    | cons c cs =>
      cases n with
      | zero => simp at hs
      | succ n =>
        have hcs : cs.length ≤ n := by simpa using hs
        show removeAllF (n + 1) pat (c :: cs) =
          removeAllF (c :: cs).length pat (c :: cs)
        simp only [List.length_cons, removeAllF]
        by_cases hp : (pat.isPrefixOf (c :: cs) && !pat.isEmpty) = true
        · have hdl := length_drop_le_of_cond hp
          rw [if_pos hp, if_pos hp]
          rw [ih n (Nat.lt_succ_self n) pat _ (le_trans hdl hcs)]
          rw [ih cs.length (Nat.lt_succ_of_le hcs) pat _ hdl]
        · rw [if_neg hp, if_neg hp]
          rw [ih n (Nat.lt_succ_self n) pat cs hcs]
          rw [ih cs.length (Nat.lt_succ_of_le hcs) pat cs (le_refl _)]

theorem removeAll_cons (pat : List Char) (c : Char) (cs : List Char) :
    removeAll pat (c :: cs) =
      if pat.isPrefixOf (c :: cs) && !pat.isEmpty then
        removeAll pat (List.drop pat.length (c :: cs))
      else c :: removeAll pat cs := by
  show removeAllF (c :: cs).length pat (c :: cs) = _
  simp only [List.length_cons, removeAllF]
  by_cases hp : (pat.isPrefixOf (c :: cs) && !pat.isEmpty) = true
  · rw [if_pos hp, if_pos hp]
    exact removeAllF_eq_of_le cs.length pat _ (length_drop_le_of_cond hp)
  · rw [if_neg hp, if_neg hp]
    rw [removeAllF_eq_of_le cs.length pat cs (le_refl _)]

/-! ### Behaviour of `removeAll` on occurrences and non-occurrences -/

theorem removeAll_nil (pat : List Char) : removeAll pat [] = [] := rfl

/-- Removing `pat` from a string that starts with `pat` drops that
occurrence and continues after it. -/
theorem removeAll_self_append {pat : List Char} (hne : pat ≠ [])
    (X : List Char) : removeAll pat (pat ++ X) = removeAll pat X := by
  cases pat with
  | nil => exact absurd rfl hne
  | cons p pr =>
    have hpre : (p :: pr).isPrefixOf ((p :: pr) ++ X) = true := by
      have : (p :: pr) <+: ((p :: pr) ++ X) := List.prefix_append _ _
      exact List.isPrefixOf_iff_prefix.mpr this
    have hcond : ((p :: pr).isPrefixOf (p :: (pr ++ X)) && !(p :: pr).isEmpty)
        = true := by
      rw [show p :: (pr ++ X) = (p :: pr) ++ X from rfl, hpre]
      rfl
    rw [show (p :: pr) ++ X = p :: (pr ++ X) from rfl, removeAll_cons]
    rw [if_pos hcond]
    congr 1
    show List.drop (p :: pr).length ((p :: pr) ++ X) = X
    simp

/-- If no nonempty suffix of `s` starts with `pat`, `removeAll` is the
identity on `s`. -/
theorem removeAll_no_occurrence {pat : List Char} : ∀ {s : List Char},
    (∀ d, d <:+ s → d ≠ [] → ¬ pat <+: d) → removeAll pat s = s := by
  intro s
  induction s with
  | nil => intro _; rfl
  | cons c cs ih =>
    intro h
    have hcond : (pat.isPrefixOf (c :: cs) && !pat.isEmpty) = false := by
      cases hpp : pat.isPrefixOf (c :: cs) with
      | false => rfl
      | true =>
        have : pat <+: (c :: cs) := List.isPrefixOf_iff_prefix.mp hpp
        exact absurd this (h (c :: cs) (List.suffix_refl _) (by simp))
    rw [removeAll_cons, hcond, if_neg Bool.false_ne_true]
    congr 1
    exact ih (fun d hd hdne => h d (hd.trans (List.suffix_cons c cs)) hdne)

/-- If no nonempty suffix of `c` (continued by `rest`) starts with `t`,
removal walks straight through `c`. -/
theorem removeAll_append_of_no_hit {t : List Char} : ∀ {c : List Char}
    {rest : List Char},
    (∀ d, d <:+ c → d ≠ [] → ¬ t <+: (d ++ rest)) →
    removeAll t (c ++ rest) = c ++ removeAll t rest := by
  intro c
  induction c with
  | nil => intro rest _; rfl
  | cons x c' ih =>
    intro rest h
    have hcond : (t.isPrefixOf (x :: (c' ++ rest)) && !t.isEmpty) = false := by
      cases hpp : t.isPrefixOf (x :: (c' ++ rest)) with
      | false => rfl
      | true =>
        have hpre : t <+: ((x :: c') ++ rest) :=
          List.isPrefixOf_iff_prefix.mp hpp
        exact absurd hpre (h (x :: c') (List.suffix_refl _) (by simp))
    rw [show (x :: c') ++ rest = x :: (c' ++ rest) from rfl, removeAll_cons]
    rw [hcond, if_neg Bool.false_ne_true]
    rw [ih (fun d hd hdne => h d (hd.trans (List.suffix_cons x c')) hdne)]
    rfl

/-- Two lists, neither a prefix of the other: the first is not a prefix of
any right extension of the second. -/
theorem not_prefix_append {t c rest : List Char}
    (h1 : ¬ t <+: c) (h2 : ¬ c <+: t) : ¬ t <+: (c ++ rest) := by
  intro h
  rcases le_or_lt t.length c.length with hle | hlt
  · exact h1 (List.prefix_of_prefix_length_le h (List.prefix_append c rest) hle)
  · exact h2 (List.prefix_of_prefix_length_le (List.prefix_append c rest) h
      (le_of_lt hlt))

theorem not_prefix_of_head_ne {t d rest : List Char}
    (ht : t.head? = some '<') (hd : d.head? ≠ some '<') (hdne : d ≠ []) :
    ¬ t <+: (d ++ rest) := by
  cases t with
  | nil => simp at ht
  | cons a as =>
    cases d with
    | nil => exact absurd rfl hdne
    | cons b bs =>
      intro hp
      have ha : a = '<' := by simpa using ht
      have hb : b ≠ '<' := by simpa using hd
      have := (List.cons_prefix_cons.mp hp).1
      exact hb (by rw [← this, ha])

/-! ### The five recognized modifier tags -/

/-- The tag texts the `if`/`elif` chain of `_BuildSpec` recognizes. -/
def recognizedTags : List (List Char) :=
  ["<Shift>".toList, "<Primary>".toList, "<Control>".toList,
   "<Alt>".toList, "<Super>".toList]

instance (t : List Char) : Decidable (wellFormedTag t) := by
  unfold wellFormedTag
  infer_instance

theorem recognized_wellFormed : ∀ t ∈ recognizedTags, wellFormedTag t := by
  decide

theorem recognized_ne_nil : ∀ t ∈ recognizedTags, t ≠ [] := by decide

theorem recognized_head : ∀ t ∈ recognizedTags, t.head? = some '<' := by decide

theorem recognized_tags_no_overlap : ∀ t ∈ recognizedTags,
    ∀ c ∈ recognizedTags, t ≠ c → ¬ t <+: c := by decide

theorem recognized_tail_head : ∀ c ∈ recognizedTags, ∀ d ∈ c.tails,
    d ≠ [] → d ≠ c → d.head? ≠ some '<' := by decide

/-- Removing one recognized tag walks through a different recognized tag
unchanged: tag texts never overlap each other. -/
theorem removeAll_tag_append {t c : List Char} (htm : t ∈ recognizedTags)
    (hcm : c ∈ recognizedTags) (hne : t ≠ c) (rest : List Char) :
    removeAll t (c ++ rest) = c ++ removeAll t rest := by
  apply removeAll_append_of_no_hit
  intro d hd hdne
  by_cases hdc : d = c
  · rw [hdc]
    exact not_prefix_append (recognized_tags_no_overlap t htm c hcm hne)
      (recognized_tags_no_overlap c hcm t htm (Ne.symm hne))
  · exact not_prefix_of_head_ne (recognized_head t htm)
      (recognized_tail_head c hcm d ((List.mem_tails d c).mpr hd) hdne hdc) hdne

/-- Removing a recognized tag from a concatenation of recognized tags
removes exactly the components equal to it. -/
theorem removeAll_flatten {t : List Char} (htm : t ∈ recognizedTags) :
    ∀ {ts : List (List Char)}, (∀ c ∈ ts, c ∈ recognizedTags) →
    removeAll t ts.flatten = (ts.filter (fun c => decide (c ≠ t))).flatten := by
  intro ts
  induction ts with
  | nil => intro _; rfl
  | cons c ts ih =>
    intro hts
    have hc : c ∈ recognizedTags := hts c (List.mem_cons_self c ts)
    have hts' : ∀ x ∈ ts, x ∈ recognizedTags :=
      fun x hx => hts x (List.mem_cons_of_mem c hx)
    by_cases hct : c = t
    · subst hct
      rw [List.flatten_cons, removeAll_self_append (recognized_ne_nil c hc),
        ih hts']
      simp [List.filter_cons]
    · rw [List.flatten_cons,
        removeAll_tag_append htm hc (fun h => hct h.symm), ih hts']
      simp [List.filter_cons, hct]

/-- Folding the removal step over a list of recognized tags containing
every component of the working string empties it. -/
theorem foldl_removeAll_nil : ∀ (ms : List (List Char)),
    ∀ (ts : List (List Char)), (∀ m ∈ ms, m ∈ recognizedTags) →
    (∀ c ∈ ts, c ∈ recognizedTags) → (∀ c ∈ ts, c ∈ ms) →
    List.foldl (fun k m => removeAll m k) ts.flatten ms = [] := by
  intro ms
  induction ms with
  | nil =>
    intro ts _ _ hmem
    cases ts with
    | nil => rfl
    | cons c ts => exact absurd (hmem c (List.mem_cons_self c ts)) (by simp)
  | cons m ms ih =>
    intro ts hms hts hmem
    have hm : m ∈ recognizedTags := hms m (List.mem_cons_self m ms)
    simp only [List.foldl_cons]
    rw [removeAll_flatten hm hts]
    apply ih
    · exact fun x hx => hms x (List.mem_cons_of_mem m hx)
    · intro c hc
      exact hts c (List.mem_of_mem_filter hc)
    · intro c hc
      have h1 := List.mem_of_mem_filter hc
      have h2 : c ≠ m := by
        have := List.of_mem_filter hc
        simpa using this
      rcases List.mem_cons.mp (hmem c h1) with h | h
      · exact absurd h h2
      · exact h

/-- Scanning a concatenation of well-formed tags yields exactly those
tags, in order. -/
theorem findall_flatten : ∀ {ts : List (List Char)},
    (∀ t ∈ ts, wellFormedTag t) → findall ts.flatten = ts := by
  intro ts
  induction ts with
  | nil => intro _; rfl
  | cons t ts ih =>
    intro h
    rw [List.flatten_cons,
      findall_eq_some (matchTagAt_wf (h t (List.mem_cons_self t ts)) _),
      ih (fun x hx => h x (List.mem_cons_of_mem t hx))]

/-! ### The two components computed by the `_BuildSpec` loop -/

/-- The accumulated modifier list is the recognized names of the scanned
tags, one entry per match, in scan order. -/
theorem buildSpecLoop_fst : ∀ (tags mods : List (List Char))
    (key : List Char),
    (buildSpecLoop tags mods key).1 = mods ++ tags.filterMap modifierName := by
  intro tags
  induction tags with
  | nil => intro mods key; simp [buildSpecLoop]
  | cons tag rest ih =>
    intro mods key
    simp only [buildSpecLoop]
    cases hm : modifierName tag with
    | none => rw [ih]; simp [List.filterMap_cons, hm]
    | some m => rw [ih]; simp [List.filterMap_cons, hm]

/-- The final key is the left fold of tag removal over the scanned tags. -/
theorem buildSpecLoop_snd : ∀ (tags mods : List (List Char))
    (key : List Char),
    (buildSpecLoop tags mods key).2 =
      List.foldl (fun k t => removeAll t k) key tags := by
  intro tags
  induction tags with
  | nil => intro mods key; simp [buildSpecLoop]
  | cons tag rest ih =>
    intro mods key
    simp only [buildSpecLoop, List.foldl_cons]
    cases hm : modifierName tag with
    | none => rw [ih]
    | some m => rw [ih]

/-! ### Strings the scan finds nothing in -/

theorem matchTagAt_none_of_findall_nil : ∀ {s : List Char},
    findall s = [] → ∀ d, d <:+ s → matchTagAt d = none := by
  intro s
  induction s with
  | nil =>
    intro _ d hd
    rw [List.suffix_nil.mp hd]
    rfl
  | cons c cs ih =>
    intro h d hd
    have hm : matchTagAt (c :: cs) = none := by
      cases hm : matchTagAt (c :: cs) with
      | none => rfl
      | some p =>
        obtain ⟨tag, rest⟩ := p
        rw [findall_eq_some hm] at h
        exact absurd h (by simp)
    have hcs : findall cs = [] := by rw [← findall_cons_none hm]; exact h
    rcases List.suffix_cons_iff.mp hd with h1 | h2
    · rw [h1]; exact hm
    · exact ih hcs d h2

theorem not_prefix_of_matchTagAt_none {t d : List Char}
    (hwf : wellFormedTag t) (h : matchTagAt d = none) : ¬ t <+: d := by
  intro hp
  obtain ⟨e, he⟩ := hp
  rw [← he, matchTagAt_wf hwf e] at h
  exact absurd h (by simp)

/-- A well-formed tag has no occurrence in a string the scan finds
nothing in, so removing it changes nothing. -/
theorem removeAll_of_findall_nil {t s : List Char}
    (hwf : wellFormedTag t) (h : findall s = []) : removeAll t s = s := by
  apply removeAll_no_occurrence
  intro d hd _
  exact not_prefix_of_matchTagAt_none hwf (matchTagAt_none_of_findall_nil h d hd)

theorem findall_nil_of_no_match : ∀ {s : List Char},
    (∀ d ∈ s.tails, matchTagAt d = none) → findall s = [] := by
  intro s
  induction s with
  | nil => intro _; rfl
  | cons c cs ih =>
    intro h
    rw [findall_cons_none (h (c :: cs) (by simp [List.tails_cons]))]
    apply ih
    intro d hd
    exact h d (by simp [List.tails_cons, hd])

/-- `_BuildSpec`, with its loop expressed through the scan result. -/
theorem _BuildSpec_eq (schema action binding : List Char) :
    _BuildSpec schema action binding =
      ⟨schema, action,
       joinSpace (List.filterMap modifierName (findall binding)),
       List.foldl (fun k t => removeAll t k) binding (findall binding)⟩ := by
  show (⟨schema, action,
      joinSpace (buildSpecLoop (findall binding) [] binding).1,
      (buildSpecLoop (findall binding) [] binding).2⟩ : KeybindingSpec) = _
  rw [buildSpecLoop_fst, buildSpecLoop_snd, List.nil_append]

theorem wellFormedTag_ne_nil {t : List Char} (h : wellFormedTag t) :
    t ≠ [] := by
  intro hnil
  rw [hnil] at h
  exact absurd h.1 (by simp)

theorem modifierName_range {tag m : List Char} (h : modifierName tag = some m) :
    m ∈ ["Shift".toList, "Control".toList, "Alt".toList, "Super".toList] := by
  unfold modifierName at h
  split_ifs at h <;> simp at h <;> simp [← h]

/-! ### The claims -/

/-- C4: for a raw binding string in which no position matches the tag
pattern `<[^>]+>`, `_BuildSpec` returns empty modifiers and the raw
string itself as the key. -/
theorem c4_no_tags (schema action raw : List Char)
    (h : ∀ d ∈ raw.tails, matchTagAt d = none) :
    _BuildSpec schema action raw = ⟨schema, action, [], raw⟩ := by
  rw [_BuildSpec_eq, findall_nil_of_no_match h]
  rfl

/-- C4, witness: the tagless raw string `F5` parses to itself. -/
theorem c4_witness :
    _BuildSpec ("org.example".toList) ("toggle".toList) ("F5".toList) =
      ⟨"org.example".toList, "toggle".toList, [], "F5".toList⟩ :=
  c4_no_tags ("org.example".toList) ("toggle".toList) ("F5".toList) (by decide)

/-- C9: `_BuildSpec` is total — for every input triple it returns a
`KeybindingSpec`, carrying the given schema and action. -/
theorem c9_total (schema action raw : List Char) :
    ∃ rec : KeybindingSpec, _BuildSpec schema action raw = rec ∧
      rec.schema = schema ∧ rec.action = action :=
  ⟨_BuildSpec schema action raw, rfl, rfl, rfl⟩

/-- C2: the modifiers field is the recognized modifier names of the
scanned tags joined with a single space in scan order; every raw string
`<Control><Alt>X` with tag-free `X` yields modifiers `Control Alt` and
key `X`; every scanned `<Primary>` contributes the token `Control`. -/
theorem c2_modifiers_format :
    (∀ schema action raw : List Char,
      (_BuildSpec schema action raw).modifiers =
        joinSpace (List.filterMap modifierName (findall raw))) ∧
    (∀ schema action X : List Char, findall X = [] →
      _BuildSpec schema action ("<Control><Alt>".toList ++ X) =
        ⟨schema, action, "Control Alt".toList, X⟩) ∧
    (∀ raw : List Char, "<Primary>".toList ∈ findall raw →
      "Control".toList ∈ List.filterMap modifierName (findall raw)) := by
  refine ⟨?_, ?_, ?_⟩
  · intro schema action raw
    rw [_BuildSpec_eq]
  · intro schema action X hX
    have hCA : ("<Control><Alt>".toList : List Char) =
        "<Control>".toList ++ "<Alt>".toList := by decide
    have hwfC : wellFormedTag ("<Control>".toList) := by decide
    have hwfA : wellFormedTag ("<Alt>".toList) := by decide
    have hf : findall ("<Control><Alt>".toList ++ X) =
        ["<Control>".toList, "<Alt>".toList] := by
      rw [hCA, List.append_assoc,
        findall_eq_some (matchTagAt_wf hwfC _),
        findall_eq_some (matchTagAt_wf hwfA _), hX]
    have hkey : List.foldl (fun k t => removeAll t k)
        ("<Control><Alt>".toList ++ X)
        ["<Control>".toList, "<Alt>".toList] = X := by
      simp only [List.foldl_cons, List.foldl_nil]
      rw [hCA, List.append_assoc,
        removeAll_self_append (by decide) ("<Alt>".toList ++ X),
        removeAll_tag_append (by decide) (by decide) (by decide) X,
        removeAll_of_findall_nil hwfC hX,
        removeAll_self_append (by decide) X,
        removeAll_of_findall_nil hwfA hX]
    have hmods : joinSpace (List.filterMap modifierName
        ["<Control>".toList, "<Alt>".toList]) = "Control Alt".toList := by
      decide
    rw [_BuildSpec_eq, hf, hmods, hkey]
  · intro raw hmem
    exact List.mem_filterMap.mpr ⟨"<Primary>".toList, hmem, by decide⟩

/-- C2, witness: `<Control><Alt>F1` parses to modifiers `Control Alt`
and key `F1`. -/
theorem c2_witness :
    _BuildSpec ("s".toList) ("a".toList) ("<Control><Alt>F1".toList) =
      ⟨"s".toList, "a".toList, "Control Alt".toList, "F1".toList⟩ := by
  rw [show ("<Control><Alt>F1".toList : List Char) =
    "<Control><Alt>".toList ++ "F1".toList from by decide]
  exact c2_modifiers_format.2.1 ("s".toList) ("a".toList) ("F1".toList)
    (by decide)

/-- C3: every modifiers field `_BuildSpec` produces is a space-join of
tokens from the canonical set Shift, Control, Alt, Super; a well-formed
but unrecognized tag (such as `<Foo>`) followed by tag-free text yields
empty modifiers while the tag text is still stripped from the key. -/
theorem c3_canonical_set :
    (∀ schema action raw : List Char, ∃ ms : List (List Char),
      (∀ m ∈ ms, m ∈ ["Shift".toList, "Control".toList,
        "Alt".toList, "Super".toList]) ∧
      (_BuildSpec schema action raw).modifiers = joinSpace ms) ∧
    (∀ t schema action Y : List Char, wellFormedTag t →
      modifierName t = none → findall Y = [] →
      _BuildSpec schema action (t ++ Y) = ⟨schema, action, [], Y⟩) := by
  constructor
  · intro schema action raw
    refine ⟨List.filterMap modifierName (findall raw), ?_, ?_⟩
    · intro m hm
      obtain ⟨tag, _, htag⟩ := List.mem_filterMap.mp hm
      exact modifierName_range htag
    · rw [_BuildSpec_eq]
  · intro t schema action Y hwf hun hY
    have hf : findall (t ++ Y) = [t] := by
      rw [findall_eq_some (matchTagAt_wf hwf _), hY]
    have hkey : List.foldl (fun k t => removeAll t k) (t ++ Y) [t] = Y := by
      simp only [List.foldl_cons, List.foldl_nil]
      rw [removeAll_self_append (wellFormedTag_ne_nil hwf) Y,
        removeAll_of_findall_nil hwf hY]
    have hmods : joinSpace (List.filterMap modifierName [t]) = [] := by
      rw [List.filterMap_cons, hun, List.filterMap_nil]
      rfl
    rw [_BuildSpec_eq, hf, hmods, hkey]

/-- C3, witness: `<Foo>Y` parses to empty modifiers and key `Y`. -/
theorem c3_witness :
    _BuildSpec ("s".toList) ("a".toList) ("<Foo>Y".toList) =
      ⟨"s".toList, "a".toList, [], "Y".toList⟩ := by
  rw [show ("<Foo>Y".toList : List Char) = "<Foo>".toList ++ "Y".toList
    from by decide]
  exact c3_canonical_set.2 ("<Foo>".toList) ("s".toList) ("a".toList)
    ("Y".toList) (by decide) (by decide) (by decide)

/-- Counting through `filterMap modifierName`: the modifier list holds a
name once per scanned tag that maps to it. -/
theorem count_filterMap_modifierName (name : List Char) :
    ∀ l : List (List Char),
    (l.filterMap modifierName).count name =
      l.countP (fun t => modifierName t == some name) := by
  intro l
  induction l with
  | nil => rfl
  | cons a l ih =>
    rw [List.filterMap_cons, List.countP_cons]
    cases ha : modifierName a with
    | none =>
      show List.count name (List.filterMap modifierName l) =
        List.countP (fun t => modifierName t == some name) l +
          if ((none : Option (List Char)) == some name) = true then 1 else 0
      rw [show ((none : Option (List Char)) == some name) = false from rfl,
        if_neg Bool.false_ne_true, Nat.add_zero]
      exact ih
    | some m =>
      show List.count name (m :: List.filterMap modifierName l) =
        List.countP (fun t => modifierName t == some name) l +
          if (m == name) = true then 1 else 0
      rw [List.count_cons, ih]

/-- Every scanned occurrence of a tag mapping to `name` is counted by the
per-name predicate. -/
theorem count_tag_le_countP {tag name : List Char}
    (h : modifierName tag = some name) : ∀ l : List (List Char),
    l.count tag ≤ l.countP (fun t => modifierName t == some name) := by
  intro l
  induction l with
  | nil => exact le_refl _
  | cons a l ih =>
    rw [List.count_cons, List.countP_cons]
    by_cases hb : (a == tag) = true
    · have ha : a = tag := eq_of_beq hb
      have hq : (modifierName a == some name) = true := by
        rw [ha, h]
        exact beq_self_eq_true (some name)
      rw [if_pos hb, if_pos hq]
      omega
    · rw [if_neg hb]
      by_cases hq : (modifierName a == some name) = true
      · rw [if_pos hq]; omega
      · rw [if_neg hq]; omega

/-- C1, counterexample: in `<Alt><Alt>F1` the scan matches `<Alt>` twice
and the modifiers string holds the token `Alt` twice, not exactly once
as the claim states; and in `<Alt><Alt><P><A<P><Q>lt>` the removal
steps splice remnants into a new occurrence of the duplicated tag, so
the final key is `<Alt>` itself — the tag is not stripped from the
resulting key. -/
theorem c1_counterexample :
    ¬ ((List.splitOn ' '
        ((_BuildSpec ("s".toList) ("a".toList)
          ("<Alt><Alt>F1".toList)).modifiers)).count ("Alt".toList) = 1) ∧
    (_BuildSpec ("s".toList) ("a".toList)
        ("<Alt><Alt><P><A<P><Q>lt>".toList)).key = "<Alt>".toList := by
  refine ⟨by decide, by decide⟩

/-- C1, amended: for every raw binding string whose scan matches the
same recognized tag more than once, the modifiers string is the
space-join of one canonical name per scanned occurrence in scan order —
so it holds the corresponding modifier name once per occurrence, hence
at least twice and never exactly once — and the key is the result of
successively deleting all occurrences of each scanned tag text from the
working string in scan order, which need not leave the key free of the
duplicated tag's text, since later deletions can splice remnants into a
new occurrence. -/
theorem c1_amended (schema action raw tag name : List Char)
    (hname : modifierName tag = some name)
    (hdup : 2 ≤ (findall raw).count tag) :
    ∃ mods : List (List Char),
      (_BuildSpec schema action raw).modifiers = joinSpace mods ∧
      mods.count name =
        (findall raw).countP (fun t => modifierName t == some name) ∧
      2 ≤ mods.count name ∧
      (_BuildSpec schema action raw).key =
        List.foldl (fun k t => removeAll t k) raw (findall raw) := by
  refine ⟨List.filterMap modifierName (findall raw), ?_, ?_, ?_, ?_⟩
  · rw [_BuildSpec_eq]
  · exact count_filterMap_modifierName name (findall raw)
  · calc (2 : Nat) ≤ (findall raw).count tag := hdup
      _ ≤ (findall raw).countP (fun t => modifierName t == some name) :=
          count_tag_le_countP hname (findall raw)
      _ = (List.filterMap modifierName (findall raw)).count name :=
          (count_filterMap_modifierName name (findall raw)).symm
  · rw [_BuildSpec_eq]

/-- C1, witness of the amended claim, at `<Alt><Alt>F1`: the scan
matches `<Alt>` twice and the modifier list holds `Alt` once per
occurrence, at least twice. -/
theorem c1_witness :
    ∃ mods : List (List Char),
      (_BuildSpec ("s".toList) ("a".toList)
        ("<Alt><Alt>F1".toList)).modifiers = joinSpace mods ∧
      mods.count ("Alt".toList) =
        (findall ("<Alt><Alt>F1".toList)).countP
          (fun t => modifierName t == some ("Alt".toList)) ∧
      2 ≤ mods.count ("Alt".toList) ∧
      (_BuildSpec ("s".toList) ("a".toList)
          ("<Alt><Alt>F1".toList)).key =
        List.foldl (fun k t => removeAll t k) ("<Alt><Alt>F1".toList)
          (findall ("<Alt><Alt>F1".toList)) :=
  c1_amended ("s".toList) ("a".toList) ("<Alt><Alt>F1".toList)
    ("<Alt>".toList) ("Alt".toList) (by decide) (by decide)

/-- C10: a nonempty concatenation of recognized modifier tags parses to
an empty key, yet is a nonempty binding string, so the collector's
per-binding filter keeps its record. -/
theorem c10_all_modifier_tags (schema action : List Char)
    (ts : List (List Char)) (hne : ts ≠ [])
    (hts : ∀ t ∈ ts, t ∈ recognizedTags) :
    (_BuildSpec schema action ts.flatten).key = [] ∧
    ts.flatten ≠ [] ∧
    bindingSpecs schema action [ts.flatten] =
      [_BuildSpec schema action ts.flatten] := by
  have hwf : ∀ t ∈ ts, wellFormedTag t :=
    fun t ht => recognized_wellFormed t (hts t ht)
  have hfa : findall ts.flatten = ts := findall_flatten hwf
  have hkey : (_BuildSpec schema action ts.flatten).key = [] := by
    rw [_BuildSpec_eq]
    show List.foldl (fun k t => removeAll t k) ts.flatten
      (findall ts.flatten) = []
    rw [hfa]
    exact foldl_removeAll_nil ts ts hts hts (fun c hc => hc)
  have hne' : ts.flatten ≠ [] := by
    cases ts with
    | nil => exact absurd rfl hne
    | cons t ts' =>
      have ht : t ≠ [] :=
        recognized_ne_nil t (hts t (List.mem_cons_self t ts'))
      cases t with
      | nil => exact absurd rfl ht
      | cons a as => simp
  refine ⟨hkey, hne', ?_⟩
  unfold bindingSpecs
  have hbe : (ts.flatten).isEmpty = false := by
    cases hf : ts.flatten with
    | nil => exact absurd hf hne'
    | cons _ _ => rfl
  simp [List.filter_cons, hbe]

/-- C10, witness: the raw string `<Shift>` parses to an empty key and
its record survives the collector's per-binding filter. -/
theorem c10_witness :
    (_BuildSpec ("s".toList) ("a".toList)
      (List.flatten ["<Shift>".toList])).key = [] ∧
    List.flatten ["<Shift>".toList] ≠ [] ∧
    bindingSpecs ("s".toList) ("a".toList) [List.flatten ["<Shift>".toList]] =
      [_BuildSpec ("s".toList) ("a".toList)
        (List.flatten ["<Shift>".toList])] :=
  c10_all_modifier_tags ("s".toList) ("a".toList) ["<Shift>".toList]
    (by decide) (by decide)

/-- C5: the collector's per-key comprehension skips every empty binding
string, wherever it occurs, and each non-empty binding string
contributes exactly one record, in place. -/
theorem c5_empty_bindings_skipped :
    (∀ schema action : List Char, ∀ pre post : List (List Char),
      bindingSpecs schema action (pre ++ [] :: post) =
        bindingSpecs schema action (pre ++ post)) ∧
    (∀ schema action : List Char, ∀ pre post : List (List Char),
      ∀ b : List Char, b ≠ [] →
      bindingSpecs schema action (pre ++ b :: post) =
        bindingSpecs schema action pre ++
          _BuildSpec schema action b :: bindingSpecs schema action post) := by
  constructor
  · intro schema action pre post
    unfold bindingSpecs
    simp [List.filter_append, List.filter_cons]
  · intro schema action pre post b hb
    have hbe : b.isEmpty = false := by
      cases b with
      | nil => exact absurd rfl hb
      | cons _ _ => rfl
    unfold bindingSpecs
    simp [List.filter_append, List.filter_cons, hbe]

/-- C5, witness: of the binding list `["", "F5"]` only `F5` yields a
record. -/
theorem c5_witness :
    bindingSpecs ("s".toList) ("a".toList) [[], "F5".toList] =
      [_BuildSpec ("s".toList) ("a".toList) ("F5".toList)] := by
  have h1 := c5_empty_bindings_skipped.1 ("s".toList) ("a".toList)
    [] ["F5".toList]
  have h2 := c5_empty_bindings_skipped.2 ("s".toList) ("a".toList)
    [] [] ("F5".toList) (by decide)
  exact h1.trans h2

/-- C6: a schema contributes records only when its identifier contains
the substring `keybindings` and its settings path is available; in
particular a schema without a bound path contributes nothing. -/
theorem c6_schema_filter (st : Store) (schema : List Char) :
    (schemaContribution st schema ≠ [] →
      strContains schema ("keybindings".toList) = true ∧
      st.hasPath schema = true) ∧
    (st.hasPath schema = false → schemaContribution st schema = []) := by
  constructor
  · intro h
    by_cases hk : strContains schema ("keybindings".toList) = true
    · by_cases hp : st.hasPath schema = true
      · exact ⟨hk, hp⟩
      · have hp' : st.hasPath schema = false := by
          cases hpp : st.hasPath schema
          · rfl
          · exact absurd hpp hp
        exfalso
        apply h
        unfold schemaContribution
        rw [hk, hp']
        rfl
    · have hk' : strContains schema ("keybindings".toList) = false := by
        cases hkk : strContains schema ("keybindings".toList)
        · rfl
        · exact absurd hkk hk
      exfalso
      apply h
      unfold schemaContribution
      rw [hk']
      rfl
  · intro hp
    unfold schemaContribution
    rw [hp, Bool.and_false]
    rfl

/-- A small concrete store: one fixed-path schema with a path, one
relocatable schema without a path. -/
def egStore : Store where
  nonRelocatableSchemas := ["org.fixed.keybindings".toList]
  relocatableSchemas := ["org.reloc.keybindings".toList]
  hasPath := fun schema => decide (schema = "org.fixed.keybindings".toList)
  keys := fun _ => ["open".toList]
  isStringArray := fun _ _ => true
  getStrv := fun _ _ => ["<Alt>o".toList]

/-- C6, witness: the relocatable schema of `egStore` has no path and
contributes zero records. -/
theorem c6_witness :
    schemaContribution egStore ("org.reloc.keybindings".toList) = [] :=
  (c6_schema_filter egStore ("org.reloc.keybindings".toList)).2 (by decide)

/-- C7: the collector sorts nothing — its output is the concatenation of
the fixed-path schemas' records followed by the relocatable schemas'
records, in enumeration order; within a schema, records follow the key
enumeration order and, per key, the binding-list order, one record per
surviving binding. -/
theorem c7_enumeration_order (st : Store) :
    GetAllSpecs st =
      st.nonRelocatableSchemas.flatMap
        (fun schema => schemaContribution st schema) ++
      st.relocatableSchemas.flatMap
        (fun schema => schemaContribution st schema) ∧
    (∀ schema, _GetSpecsForSchema st schema =
      (st.keys schema).flatMap (fun action => keyRecords st schema action)) ∧
    (∀ schema action, keyRecords st schema action =
      if st.isStringArray schema action then
        ((st.getStrv schema action).filter (fun b => !b.isEmpty)).map
          (fun b => _BuildSpec schema action b)
      else []) := by
  refine ⟨?_, fun _ => rfl, ?_⟩
  · unfold GetAllSpecs
    exact List.flatMap_append _ _ _
  · intro schema action
    unfold keyRecords bindingSpecs
    by_cases hia : st.isStringArray schema action = true
    · rw [if_pos hia, if_pos hia]
      by_cases he : (st.getStrv schema action).isEmpty = true
      · rw [if_pos he, List.isEmpty_iff.mp he]
        rfl
      · rw [if_neg he]
    · rw [if_neg hia, if_neg hia]

theorem strContains_iff {hay needle : List Char} :
    strContains hay needle = true ↔ needle <:+: hay := by
  unfold strContains
  rw [List.any_eq_true]
  constructor
  · rintro ⟨d, hd, hp⟩
    exact List.infix_iff_prefix_suffix.mpr
      ⟨d, List.isPrefixOf_iff_prefix.mp hp, (List.mem_tails d hay).mp hd⟩
  · intro h
    obtain ⟨d, hpre, hsuf⟩ := List.infix_iff_prefix_suffix.mp h
    exact ⟨d, (List.mem_tails d hay).mpr hsuf,
      List.isPrefixOf_iff_prefix.mpr hpre⟩

/-- C8: the search callback reports a row as a match (returns `false`)
iff the lowercased search string is a substring of the lowercased text
of one of the four columns; in particular `alt` matches a row whose
modifiers column is `Alt`. -/
theorem c8_search_all_columns :
    (∀ (key : List Char) (row : KeybindingSpec),
      _Search key row = false ↔
        (pyLower key <:+: pyLower row.schema ∨
         pyLower key <:+: pyLower row.action ∨
         pyLower key <:+: pyLower row.modifiers ∨
         pyLower key <:+: pyLower row.key)) ∧
    _Search ("alt".toList)
      ⟨"org.schema".toList, "open".toList, "Alt".toList, "F1".toList⟩
      = false := by
  constructor
  · intro key row
    have hb : _Search key row = false ↔
        (row.ToList.any
          (fun col => strContains (pyLower col) (pyLower key))) = true := by
      unfold _Search
      cases row.ToList.any (fun col => strContains (pyLower col) (pyLower key))
      · simp
      · simp
    rw [hb]
    unfold KeybindingSpec.ToList
    simp only [List.any_cons, List.any_nil, Bool.or_eq_true, Bool.or_false,
      strContains_iff]
  · decide

end ShowKeybindings
